import Mathlib

/-!
Shallow embedding of the transcript segmentation and progressive streaming
engine of `src/livekit-agent/agent.py` (virtual-tutor-v7), together with
proofs of the specified properties.

Modelling conventions:
* Python strings are `List Char`; ASCII semantics for `\w`, `\s`, `\d`
  character classes (the inputs handled by the agent are ASCII transcripts).
* Python floats are modelled as exact rationals `ℚ`; `int()` truncation is
  `pyInt` (truncation toward zero).
* Regular expressions from the source are hand-compiled to matcher
  functions; each compiled matcher follows the leftmost, greedy/non-greedy
  backtracking semantics of the `re` module for its particular pattern.
* Publishing to the LiveKit room is modelled as the ordered list of packets
  handed to `publish_data`; a failure oracle `failsAt : Nat → Bool` tells
  which publish call (by attempt index) raises.
-/

/-- Python `str` whitespace for `split` / `strip` / `\s` (ASCII). -/
def isSpace (c : Char) : Bool :=
  c = ' ' ∨ c = '\t' ∨ c = '\n' ∨ c = '\r' ∨ c = '\x0b' ∨ c = '\x0c'

/-- Python regex `\w` (ASCII): `[a-zA-Z0-9_]`. -/
def isWordChar (c : Char) : Bool :=
  c.isAlpha ∨ c.isDigit ∨ c = '_'

/-- ASCII letter (`[a-zA-Z]`, also `[a-z]` under `re.IGNORECASE`). -/
def isAsciiAlpha (c : Char) : Bool := c.isAlpha

/-- Python `str.strip()`: drop leading and trailing whitespace. -/
def strip (t : List Char) : List Char :=
  ((t.dropWhile isSpace).reverse.dropWhile isSpace).reverse

/-- Helper for `pySplit`, accumulating the current word (reversed). -/
def pySplitAux : List Char → List Char → List (List Char)
  | [], acc => if acc = [] then [] else [acc.reverse]
  | c :: rest, acc =>
    if isSpace c then
      if acc = [] then pySplitAux rest [] else acc.reverse :: pySplitAux rest []
    else pySplitAux rest (c :: acc)

/-- Python `str.split()` with no separator: split on whitespace runs,
no empty words. -/
def pySplit (t : List Char) : List (List Char) := pySplitAux t []

/-- Python `" ".join(xs)`. -/
def joinSpace (xs : List (List Char)) : List Char :=
  List.intercalate [' '] xs

/-- Case-insensitive literal match: `matchLitCI pat t` consumes `pat`
(given lowercase) from the front of `t`, returning the remainder.
Models a literal under `re.IGNORECASE`. -/
def matchLitCI : List Char → List Char → Option (List Char)
  | [], t => some t
  | _ :: _, [] => none
  | p :: ps, c :: cs => if p = c.toLower then matchLitCI ps cs else none

/-- `startsWithCI pat t`: the lowercase literal `pat` matches at the head
of `t`, case-insensitively. -/
def startsWithCI (pat t : List Char) : Bool := (matchLitCI pat t).isSome

/-- Greedy `+` over a character class: the maximal nonempty prefix
satisfying `f`, with the remainder. -/
def takeWhile1 (f : Char → Bool) (t : List Char) : Option (List Char × List Char) :=
  let g := t.takeWhile f
  if g = [] then none else some (g, t.dropWhile f)

/-! Rational arithmetic in kernel-computable form.

Batteries marks `Rat.add`, `Rat.mul`, `Rat.inv` &c. `@[irreducible]`, which
blocks kernel evaluation in `decide`; the model therefore uses the
equivalent `mkRat`-based operations below, and `pyAdd_eq` / `pyMul_eq` /
`pyDiv_eq` prove them equal to the ordinary field operations on ℚ. -/

/-- Exact rational addition (equal to `+` on ℚ, see `pyAdd_eq`). -/
def pyAdd (a b : ℚ) : ℚ := mkRat (a.num * b.den + b.num * a.den) (a.den * b.den)

/-- Exact rational multiplication (equal to `*` on ℚ, see `pyMul_eq`). -/
def pyMul (a b : ℚ) : ℚ := mkRat (a.num * b.num) (a.den * b.den)

/-- Exact rational division (equal to `/` on ℚ, see `pyDiv_eq`; Python's
float division of nonzero values is modelled exactly). -/
def pyDiv (a b : ℚ) : ℚ :=
  if 0 ≤ b.num then mkRat (a.num * (b.den : ℤ)) (a.den * b.num.toNat)
  else mkRat (-(a.num * (b.den : ℤ))) (a.den * (-b.num).toNat)

/-- Truncation toward zero, Python `int()` on a float. -/
def pyInt (q : ℚ) : ℤ := q.num.tdiv q.den

/-! ## TimingEstimator (agent.py lines 81-143)

`TimingEstimator.__init__` stores `wpm` and `ms_per_word = 60000 / wpm`.
`estimate_word_timings` mutates `ms_per_word` when an audio duration is
supplied (a Python-truthiness test, so `0` behaves like `None`). -/

/-- State of a `TimingEstimator` instance: the configured words-per-minute
rate and the current `ms_per_word` attribute. -/
structure TimingEstimator where
  wpm : ℚ
  ms_per_word : ℚ
deriving DecidableEq, Repr

/-- `TimingEstimator(words_per_minute)`. -/
def TimingEstimator.init (words_per_minute : ℚ) : TimingEstimator :=
  { wpm := words_per_minute, ms_per_word := pyDiv 60000 words_per_minute }

/-- `TimingEstimator._is_math(word)`: `re.search(r'[\d\+\-\*\/\=\^\(\)]', word)`. -/
def isMathWord (w : List Char) : Bool :=
  w.any fun c =>
    c.isDigit ∨ c = '+' ∨ c = '-' ∨ c = '*' ∨ c = '/' ∨ c = '=' ∨ c = '^' ∨ c = '(' ∨ c = ')'

/-- One entry of the list produced by `estimate_word_timings`. -/
structure WordTiming where
  word : List Char
  startTime : ℤ
  endTime : ℤ
  confidence : ℚ
  isMath : Bool
deriving DecidableEq, Repr

/-- The word loop of `estimate_word_timings`: `current_time` accumulates in
float (here exact ℚ); start/end are truncated with `int()`. -/
def timingLoop (mpw conf : ℚ) : ℚ → List (List Char) → List WordTiming
  | _, [] => []
  | ct, w :: ws =>
    let d := if isMathWord w then pyMul mpw (mkRat 3 2) else mpw
    { word := w, startTime := pyInt ct, endTime := pyInt (pyAdd ct d),
      confidence := conf, isMath := isMathWord w } :: timingLoop mpw conf (pyAdd ct d) ws

/-- `TimingEstimator.estimate_word_timings(text, audio_duration)`.
Returns the timing list and the post-call instance state: when
`audio_duration` is truthy the method overwrites `self.ms_per_word` with
`audio_duration * 1000 / len(words)` (or `200` when `words` is empty).
Confidence is `0.8` when an audio duration was supplied (truthy), else `0.6`. -/
def TimingEstimator.estimate_word_timings (self : TimingEstimator) (text : List Char)
    (audio_duration : Option ℚ) : List WordTiming × TimingEstimator :=
  let words := pySplit text
  match audio_duration with
  | none => (timingLoop self.ms_per_word (mkRat 3 5) 0 words, self)
  | some d =>
    if d = 0 then (timingLoop self.ms_per_word (mkRat 3 5) 0 words, self)
    else
      let mpw := if words = [] then 200 else pyDiv (pyMul d 1000) (words.length : ℚ)
      (timingLoop mpw (mkRat 4 5) 0 words, { self with ms_per_word := mpw })

/-- Sum of `endTime - startTime` over a timing list. -/
def durSum (ts : List WordTiming) : ℤ :=
  (ts.map fun t => t.endTime - t.startTime).sum

/-! ## Math-indicator patterns (agent.py `detect_math_patterns`, lines 325-367)

Each regex of the `math_indicators` bank is hand-compiled to a matcher on a
suffix of the text; `reSearch` scans every position (with the previous
character available, for word boundaries), which models `re.search` under
`re.IGNORECASE`. -/

/-- Scan every suffix, tracking the previous character (for `\b`). -/
def searchPos (m : Option Char → List Char → Bool) : Option Char → List Char → Bool
  | prev, [] => m prev []
  | prev, c :: rest => m prev (c :: rest) ∨ searchPos m (some c) rest

/-- `re.search` for a compiled positional matcher. -/
def reSearch (m : Option Char → List Char → Bool) (t : List Char) : Bool :=
  searchPos m none t

/-- Case-insensitive substring containment (`re.search` of a literal under
`re.IGNORECASE`, or Python `pat in s.lower()` for a lowercase `pat`). -/
def containsCI (pat : String) (t : List Char) : Bool :=
  reSearch (fun _ s => startsWithCI pat.toList s) t

/-- Matcher for `\\frac\{[^}]+\}\{[^}]+\}` at a position. -/
def chainFrac (t : List Char) : Option (List Char) := do
  let r1 ← matchLitCI "\\frac\x7b".toList t
  let (_, r2) ← takeWhile1 (fun c => c ≠ '\x7d') r1
  let r3 ← matchLitCI "\x7d\x7b".toList r2
  let (_, r4) ← takeWhile1 (fun c => c ≠ '\x7d') r3
  matchLitCI "\x7d".toList r4

/-- Matcher for `\\sqrt\{[^}]+\}` at a position. -/
def chainSqrt (t : List Char) : Option (List Char) := do
  let r1 ← matchLitCI "\\sqrt\x7b".toList t
  let (_, r2) ← takeWhile1 (fun c => c ≠ '\x7d') r1
  matchLitCI "\x7d".toList r2

/-- Matcher for `\d+x\s*[+-]\s*\d+` at a position. -/
def chainLinear (t : List Char) : Option (List Char) := do
  let (_, r1) ← takeWhile1 Char.isDigit t
  let r2 ← matchLitCI "x".toList r1
  let r3 := r2.dropWhile isSpace
  let r4 ← match r3 with
    | c :: cs => if c = '+' ∨ c = '-' then some cs else none
    | [] => none
  let r5 := r4.dropWhile isSpace
  let (_, r6) ← takeWhile1 Char.isDigit r5
  pure r6

/-- Matcher for `equals?\s+\d+` at a position. -/
def chainEqualsWord (t : List Char) : Option (List Char) := do
  let r1 ← matchLitCI "equal".toList t
  let r2 := match r1 with | c :: cs => if c.toLower = 's' then cs else r1 | [] => r1
  let (_, r3) ← takeWhile1 isSpace r2
  let (_, r4) ← takeWhile1 Char.isDigit r3
  pure r4

/-- Matcher for `=\s*\d+` at a position. -/
def chainEqNum (t : List Char) : Option (List Char) := do
  let r1 ← match t with | '=' :: cs => some cs | _ => none
  let r2 := r1.dropWhile isSpace
  let (_, r3) ← takeWhile1 Char.isDigit r2
  pure r3

/-- Matcher for `\$[^$]+\$` at a position. -/
def chainDollar (t : List Char) : Option (List Char) := do
  let r1 ← match t with | '$' :: cs => some cs | _ => none
  let (_, r2) ← takeWhile1 (fun c => c ≠ '$') r1
  match r2 with | '$' :: cs => some cs | _ => none

/-- Matcher for `\\[a-zA-Z]+\{` at a position. -/
def chainCmd (t : List Char) : Option (List Char) := do
  let r1 ← match t with | '\\' :: cs => some cs | _ => none
  let (_, r2) ← takeWhile1 isAsciiAlpha r1
  match r2 with | '\x7b' :: cs => some cs | _ => none

/-- Matcher for `\b[a-z]\s*=\s*[^\s]+` at a position (character class under
`re.IGNORECASE`, so any ASCII letter). -/
def chainAssign (prev : Option Char) (t : List Char) : Bool :=
  (match prev with | none => true | some c => !(isWordChar c)) &&
  (match t with
   | c :: r1 =>
     isAsciiAlpha c &&
       (do
         let r2 := r1.dropWhile isSpace
         let r3 ← match r2 with | '=' :: cs => some cs | _ => none
         let r4 := r3.dropWhile isSpace
         let (_, r5) ← takeWhile1 (fun c => ¬ isSpace c) r4
         pure r5).isSome
   | [] => false)

/-- Interior scan for `\([^)]*[+\-*/=][^)]*\)`: from just after `(`, look for
an operator before the first `)`. -/
def scanParen : List Char → Bool → Bool
  | [], _ => false
  | c :: r, seen =>
    if c = ')' then seen
    else scanParen r (seen ∨ c = '+' ∨ c = '-' ∨ c = '*' ∨ c = '/' ∨ c = '=')

/-- Matcher for `\([^)]*[+\-*/=][^)]*\)` at a position. -/
def chainParen (t : List Char) : Bool :=
  match t with
  | '(' :: r => scanParen r false
  | _ => false

/-- `any(re.search(pattern, text, re.IGNORECASE) for pattern in math_indicators)`:
the 13-entry indicator bank of `detect_math_patterns`. -/
def has_math (t : List Char) : Bool :=
  (containsCI "x^2" t ∨ containsCI "x squared" t ∨ containsCI "x²" t)
  ∨ reSearch (fun _ s => (chainFrac s).isSome) t
  ∨ reSearch (fun _ s => (chainSqrt s).isSome) t
  ∨ reSearch (fun _ s => (chainLinear s).isSome) t
  ∨ (reSearch (fun _ s => (chainEqualsWord s).isSome) t
      ∨ reSearch (fun _ s => (chainEqNum s).isSome) t)
  ∨ (containsCI "square root" t ∨ containsCI "sqrt" t)
  ∨ (containsCI "fraction" t ∨ containsCI "over" t ∨ containsCI "divided by" t)
  ∨ (containsCI "quadratic" t ∨ containsCI "polynomial" t)
  ∨ (containsCI "equation" t ∨ containsCI "formula" t)
  ∨ reSearch (fun _ s => (chainDollar s).isSome) t
  ∨ reSearch (fun _ s => (chainCmd s).isSome) t
  ∨ reSearch chainAssign t
  ∨ reSearch (fun _ s => chainParen s) t

/-! ## Confidence scoring (agent.py `calculate_math_confidence`, lines 369-385) -/

/-- `\\frac|\\sqrt|\\sum`. -/
def confPat1 (t : List Char) : Bool :=
  containsCI "\\frac" t ∨ containsCI "\\sqrt" t ∨ containsCI "\\sum" t

/-- `x\^2|x²|squared`. -/
def confPat2 (t : List Char) : Bool :=
  containsCI "x^2" t ∨ containsCI "x²" t ∨ containsCI "squared" t

/-- `equation|formula`. -/
def confPat3 (t : List Char) : Bool :=
  containsCI "equation" t ∨ containsCI "formula" t

/-- `=\s*\d+`. -/
def confPat4 (t : List Char) : Bool :=
  reSearch (fun _ s => (chainEqNum s).isSome) t

/-- `\$[^$]+\$`. -/
def confPat5 (t : List Char) : Bool :=
  reSearch (fun _ s => (chainDollar s).isSome) t

/-- `calculate_math_confidence(text)`: start at base `0.5`, take the max over
the matched indicator-to-confidence mappings, in source order. -/
def calculate_math_confidence (t : List Char) : ℚ :=
  [(confPat1 t, mkRat 19 20), (confPat2 t, mkRat 9 10), (confPat3 t, mkRat 4 5),
    (confPat4 t, mkRat 17 20), (confPat5 t, mkRat 19 20)].foldl
    (fun acc pc => if pc.1 then max acc pc.2 else acc) (mkRat 1 2)

/-! ## Notation conversion (agent.py `convert_to_latex`, lines 387-438)

The 25 ordered `re.sub` rules are each compiled to a function that, given
the previous character (for `\b`) and the text from some position, returns
the replacement text and the number of characters consumed. A generic
driver applies one rule by scanning left to right over the whole string
(`re.sub` semantics: leftmost, non-overlapping, resume after the match);
the rules are then folded in source order, and the result stripped. -/

/-- A compiled substitution rule: previous character, text at a position ↦
replacement and consumed length (every rule consumes at least one char). -/
def SubRule : Type := Option Char → List Char → Option (List Char × Nat)

/-- A literal-to-literal rule, case-insensitive. -/
def ruleLit (pat repl : String) : SubRule := fun _ t =>
  (matchLitCI pat.toList t).map fun r => (repl.toList, t.length - r.length)

/-- `(\w+) squared` / `(\w+) cubed` style: a word group followed by a
literal, replaced by the group plus a suffix. -/
def ruleWordSuffix (pat replSuffix : String) : SubRule := fun _ t => do
  let (g, r1) ← takeWhile1 isWordChar t
  let r2 ← matchLitCI pat.toList r1
  pure (g ++ replSuffix.toList, t.length - r2.length)

/-- `(\w+) to the power of (\d+)` → `\1^{\2}`. -/
def rulePower : SubRule := fun _ t => do
  let (g1, r1) ← takeWhile1 isWordChar t
  let r2 ← matchLitCI " to the power of ".toList r1
  let (g2, r3) ← takeWhile1 Char.isDigit r2
  pure (g1 ++ '^' :: '\x7b' :: (g2 ++ ['\x7d']), t.length - r3.length)

/-- `(\d+)x\s*OP\s*(\d+)` → `\1x OP \2` for `OP` one of `+`, `-`. -/
def ruleLinear (op : Char) : SubRule := fun _ t => do
  let (g1, r1) ← takeWhile1 Char.isDigit t
  let r2 ← matchLitCI "x".toList r1
  let r3 := r2.dropWhile isSpace
  let r4 ← match r3 with
    | c :: cs => if c = op then some cs else none
    | [] => none
  let r5 := r4.dropWhile isSpace
  let (g2, r6) ← takeWhile1 Char.isDigit r5
  pure (g1 ++ 'x' :: ' ' :: op :: ' ' :: g2, t.length - r6.length)

/-- `(\d+)x\s*equals?\s*(\d+)` → `\1x = \2`. -/
def ruleLinearEq : SubRule := fun _ t => do
  let (g1, r1) ← takeWhile1 Char.isDigit t
  let r2 ← matchLitCI "x".toList r1
  let r3 := r2.dropWhile isSpace
  let r4 ← matchLitCI "equal".toList r3
  let r5 := match r4 with | c :: cs => if c.toLower = 's' then cs else r4 | [] => r4
  let r6 := r5.dropWhile isSpace
  let (g2, r7) ← takeWhile1 Char.isDigit r6
  pure (g1 ++ 'x' :: ' ' :: '=' :: ' ' :: g2, t.length - r7.length)

/-- `equals?\s*(\d+)` → `= \1`. -/
def ruleEquals : SubRule := fun _ t => do
  let r1 ← matchLitCI "equal".toList t
  let r2 := match r1 with | c :: cs => if c.toLower = 's' then cs else r1 | [] => r1
  let r3 := r2.dropWhile isSpace
  let (g, r4) ← takeWhile1 Char.isDigit r3
  pure ('=' :: ' ' :: g, t.length - r4.length)

/-- `is equal to\s*(\d+)` → `= \1`. -/
def ruleIsEqualTo : SubRule := fun _ t => do
  let r1 ← matchLitCI "is equal to".toList t
  let r2 := r1.dropWhile isSpace
  let (g, r3) ← takeWhile1 Char.isDigit r2
  pure ('=' :: ' ' :: g, t.length - r3.length)

/-- `square root of ([^\s,]+)` → `\sqrt{\1}`. -/
def ruleSquareRoot : SubRule := fun _ t => do
  let r1 ← matchLitCI "square root of ".toList t
  let (g, r2) ← takeWhile1 (fun c => ¬ isSpace c ∧ c ≠ ',') r1
  pure ("\\sqrt\x7b".toList ++ (g ++ ['\x7d']), t.length - r2.length)

/-- `sqrt\s*\(([^)]+)\)` → `\sqrt{\1}`. -/
def ruleSqrtParen : SubRule := fun _ t => do
  let r1 ← matchLitCI "sqrt".toList t
  let r2 := r1.dropWhile isSpace
  let r3 ← match r2 with | '(' :: cs => some cs | _ => none
  let (g, r4) ← takeWhile1 (fun c => c ≠ ')') r3
  let r5 ← match r4 with | ')' :: cs => some cs | _ => none
  pure ("\\sqrt\x7b".toList ++ (g ++ ['\x7d']), t.length - r5.length)

/-- `(\d+) over (\d+)` → `\frac{\1}{\2}`. -/
def ruleNumOver : SubRule := fun _ t => do
  let (g1, r1) ← takeWhile1 Char.isDigit t
  let r2 ← matchLitCI " over ".toList r1
  let (g2, r3) ← takeWhile1 Char.isDigit r2
  pure ("\\frac\x7b".toList ++ g1 ++ '\x7d' :: '\x7b' :: (g2 ++ ['\x7d']), t.length - r3.length)

/-- `([^\s]+) over ([^\s]+)` → `\frac{\1}{\2}`. -/
def ruleAnyOver : SubRule := fun _ t => do
  let (g1, r1) ← takeWhile1 (fun c => ¬ isSpace c) t
  let r2 ← matchLitCI " over ".toList r1
  let (g2, r3) ← takeWhile1 (fun c => ¬ isSpace c) r2
  pure ("\\frac\x7b".toList ++ g1 ++ '\x7d' :: '\x7b' :: (g2 ++ ['\x7d']), t.length - r3.length)

/-- `fraction ([^\s]+) over ([^\s]+)` → `\frac{\1}{\2}`. -/
def ruleFractionOver : SubRule := fun _ t => do
  let r1 ← matchLitCI "fraction ".toList t
  let (g1, r2) ← takeWhile1 (fun c => ¬ isSpace c) r1
  let r3 ← matchLitCI " over ".toList r2
  let (g2, r4) ← takeWhile1 (fun c => ¬ isSpace c) r3
  pure ("\\frac\x7b".toList ++ g1 ++ '\x7d' :: '\x7b' :: (g2 ++ ['\x7d']), t.length - r4.length)

/-- `NAME of ([^\s,]+)` → `\FN(\1)` for the trigonometric rules. -/
def ruleTrig (pat fn : String) : SubRule := fun _ t => do
  let r1 ← matchLitCI pat.toList t
  let (g, r2) ← takeWhile1 (fun c => ¬ isSpace c ∧ c ≠ ',') r1
  pure (fn.toList ++ '(' :: (g ++ [')']), t.length - r2.length)

/-- `\bNAME\b` → `\NAME` for the Greek-letter rules. -/
def ruleGreek (pat repl : String) : SubRule := fun prev t => do
  let _ ← match prev with
    | none => some ()
    | some c => if isWordChar c then none else some ()
  let r1 ← matchLitCI pat.toList t
  let _ ← match r1 with
    | [] => some ()
    | c :: _ => if isWordChar c then none else some ()
  pure (repl.toList, t.length - r1.length)

/-- `\s+` → a single space. -/
def ruleWsNorm : SubRule := fun _ t => do
  let (_, r) ← takeWhile1 isSpace t
  pure ([' '], t.length - r.length)

/-- One pass of `re.sub` for a compiled rule: scan left to right, replace
each leftmost match, resume after it. `fuel` bounds the recursion (every
match consumes at least one character, so the input length suffices). -/
def subAllAux (rule : SubRule) : Nat → Option Char → List Char → List Char
  | 0, _, t => t
  | _, _, [] => []
  | f + 1, prev, c :: rest =>
    match rule prev (c :: rest) with
    | some (repl, k) =>
      if k = 0 then c :: subAllAux rule f (some c) rest
      else repl ++ subAllAux rule f (((c :: rest).take k).getLast?) ((c :: rest).drop k)
    | none => c :: subAllAux rule f (some c) rest

/-- `re.sub(pattern, repl, s)` for one compiled rule. -/
def applyRule (rule : SubRule) (t : List Char) : List Char :=
  subAllAux rule t.length none t

/-- The ordered rule table of `convert_to_latex` (source order). -/
def ruleList : List SubRule :=
  [ruleLit "x squared" "x^2",
   ruleLit "x cubed" "x^3",
   ruleWordSuffix " squared" "^2",
   ruleWordSuffix " cubed" "^3",
   rulePower,
   ruleLinear '+',
   ruleLinear '-',
   ruleLinearEq,
   ruleEquals,
   ruleIsEqualTo,
   ruleSquareRoot,
   ruleSqrtParen,
   ruleNumOver,
   ruleAnyOver,
   ruleFractionOver,
   ruleTrig "sine of " "\\sin",
   ruleTrig "cosine of " "\\cos",
   ruleTrig "tangent of " "\\tan",
   ruleGreek "alpha" "\\alpha",
   ruleGreek "beta" "\\beta",
   ruleGreek "gamma" "\\gamma",
   ruleGreek "delta" "\\delta",
   ruleGreek "theta" "\\theta",
   ruleGreek "pi" "\\pi",
   ruleWsNorm]

/-- `convert_to_latex(text)`: fold the substitution rules in order over a
running buffer, then `strip`. -/
def convert_to_latex (t : List Char) : List Char :=
  strip (ruleList.foldl (fun s r => applyRule r s) t)

/-! ## Segments and classification (agent.py lines 189-367) -/

/-- A segment dict as built by `detect_math_patterns` /
`process_mixed_content`, with the optional streaming metadata added by
`stream_teacher_response_progressively`. Absent dict keys are `none` /
`false` defaults. -/
structure Segment where
  type : String
  content : List Char
  latex : Option (List Char) := none
  confidence : Option ℚ := none
  source : Option String := none
  enhanced : Bool := false
  streaming : Bool := false
  chunk_index : Option Nat := none
  total_estimated : Option Nat := none
deriving DecidableEq, Repr

/-- `{"type": "text", "content": t}`. -/
def textSegOf (t : List Char) : Segment := { type := "text", content := t }

/-- `detect_math_patterns(text)`: one `math` segment (with LaTeX conversion
and heuristic confidence) when any indicator matches, else one `text`
segment. -/
def detect_math_patterns (text : List Char) : List Segment :=
  if has_math text then
    [{ type := "math", content := text, latex := some (convert_to_latex text),
       confidence := some (calculate_math_confidence text), enhanced := true }]
  else [textSegOf text]

/-- The delimited-math segment built for a regex match of
`\$\$?(.*?)\$\$?` with group `g`: content `f"${g}$"`, confidence `0.98`,
`source="latex_delimited"`. -/
def delimSegOf (g : List Char) : Segment :=
  { type := "math", content := '$' :: (g ++ ['$']), latex := some g,
    confidence := some (mkRat 49 50), source := some "latex_delimited" }

/-- The non-greedy group of `\$\$?(.*?)\$\$?` after the opening dollar(s):
the shortest newline-free run up to a closing `$` (the closing `\$?` then
greedily takes a second `$`). Returns the group and the remainder after the
match. -/
def grabGroup : List Char → Option (List Char × List Char)
  | [] => none
  | c :: r =>
    if c = '$' then
      some ([], match r with
        | c2 :: r2 => if c2 = '$' then r2 else c2 :: r2
        | [] => [])
    else if c = '\n' then none
    else (grabGroup r).map fun p => (c :: p.1, p.2)

/-- Match `\$\$?(.*?)\$\$?` anchored at the head of `t`: the greedy opening
`\$?` prefers to consume a second `$` and backtracks if the rest then
fails. -/
def matchHere (t : List Char) : Option (List Char × List Char) :=
  match t with
  | [] => none
  | c :: rest =>
    if c = '$' then
      match rest with
      | c2 :: rest2 =>
        if c2 = '$' then
          match grabGroup rest2 with
          | some p => some p
          | none => grabGroup rest
        else grabGroup rest
      | [] => grabGroup rest
    else none

/-- Find the leftmost match of the dollar pattern: returns the text before
the match and, if a match exists, its group and the remainder after it. -/
def scanSpans : List Char → List Char × Option (List Char × List Char)
  | [] => ([], none)
  | c :: t =>
    match matchHere (c :: t) with
    | some (g, rest) => ([], some (g, rest))
    | none =>
      let pr := scanSpans t
      (c :: pr.1, pr.2)

/-- `re.finditer` over the dollar pattern: the list of (text-before, group)
pairs and the remaining text after the last match. `fuel` bounds the
recursion (each match consumes at least two characters). -/
def splitSpansAux : Nat → List Char → List (List Char × List Char) × List Char
  | 0, t => ([], t)
  | f + 1, t =>
    match scanSpans t with
    | (_, none) => ([], t)
    | (pre, some (g, rest)) =>
      let pr := splitSpansAux f rest
      ((pre, g) :: pr.1, pr.2)

/-- `process_mixed_content(text)`: delimited math spans become
high-confidence `math` segments; the text between them goes through
`detect_math_patterns`; empty-content segments are filtered; fallback to a
single `text` segment. -/
def process_mixed_content (text : List Char) : List Segment :=
  if strip text = [] then [textSegOf text]
  else
    let pr := splitSpansAux text.length text
    let segs :=
      (pr.1.map fun pg =>
        (if strip pg.1 ≠ [] then detect_math_patterns (strip pg.1) else [])
          ++ [delimSegOf pg.2]).flatten
      ++ (if strip pr.2 ≠ [] then detect_math_patterns (strip pr.2) else [])
    let segs2 := if segs = [] then detect_math_patterns text else segs
    let segs3 := segs2.filter fun s => strip s.content ≠ []
    if segs3 = [] then [textSegOf text] else segs3

/-- Does a segment carry `source="latex_delimited"` (the marker the spec
calls `delimited`)? -/
def isDelimitedSeg (s : Segment) : Bool := s.source = some "latex_delimited"

/-! ## Math fragment parsing (agent.py `parse_math_fragments`, lines 118-140) -/

/-- The operator class `[\+\-\*\/\=]`. -/
def isOpChar (c : Char) : Bool :=
  c = '+' ∨ c = '-' ∨ c = '*' ∨ c = '/' ∨ c = '='

/-- Match the separator `\s*[\+\-\*\/\=]\s*` anchored at the head:
greedy whitespace, one operator, greedy whitespace. -/
def matchOpSepHere (t : List Char) : Option (List Char × List Char) :=
  let ws1 := t.takeWhile isSpace
  match t.dropWhile isSpace with
  | c :: r2 =>
    if isOpChar c then some (ws1 ++ c :: r2.takeWhile isSpace, r2.dropWhile isSpace)
    else none
  | [] => none

/-- Leftmost separator match: (text before, separator, text after). -/
def findOpSep : List Char → Option (List Char × List Char × List Char)
  | [] => none
  | c :: rest =>
    match matchOpSepHere (c :: rest) with
    | some (sep, after) => some ([], sep, after)
    | none => (findOpSep rest).map fun p => (c :: p.1, p.2.1, p.2.2)

/-- `re.split(r'(\s*[\+\-\*\/\=]\s*)', latex)` keeping the separators. -/
def pySplitOpsAux : Nat → List Char → List (List Char)
  | 0, t => [t]
  | f + 1, t =>
    match findOpSep t with
    | none => [t]
    | some (b, s, a) => b :: s :: pySplitOpsAux f a

/-- Split on operators while keeping them. -/
def pySplitOps (t : List Char) : List (List Char) := pySplitOpsAux t.length t

/-- `MathFragmentTrace`: progressive-reveal fragments of one equation. -/
structure MathFragments where
  fragments : List (List Char)
  timings : List ℤ
  fullLatex : List Char
deriving DecidableEq, Repr

/-- The fragment loop: each part is timestamped with the accumulated time;
bare operators get 200 ms, terms 400 ms. -/
def fragLoop : ℚ → List (List Char) → List (List Char) × List ℤ
  | _, [] => ([], [])
  | ct, p :: ps =>
    let d : ℚ := if (match strip p with | [c] => isOpChar c | _ => false) then 200 else 400
    let pr := fragLoop (pyAdd ct d) ps
    (p :: pr.1, pyInt ct :: pr.2)

/-- `TimingEstimator.parse_math_fragments(latex)`. -/
def parse_math_fragments (latex : List Char) : MathFragments :=
  let parts := (pySplitOps latex).filter fun p => strip p ≠ []
  let pr := fragLoop 0 parts
  { fragments := pr.1, timings := pr.2, fullLatex := latex }

/-! ## Packets and publishing (agent.py lines 146-323)

A `Packet` is one JSON payload handed to `room.local_participant.publish_data`
(timestamps are wall-clock and not modelled). -/

/-- Wire-level packets: `transcript` (with optional PC-013 timing fields)
and `transcript_complete`. -/
inductive Packet where
  | transcript (speaker : String) (segments : List Segment)
      (wordTimings : Option (List WordTiming)) (mathFragments : Option MathFragments)
  | complete (speaker : String) (totalChunks : Nat)
deriving DecidableEq, Repr

/-- The segments carried by a packet. -/
def Packet.segList : Packet → List Segment
  | .transcript _ segs _ _ => segs
  | .complete _ _ => []

/-- Is this a chunk packet as published by `publish_segment` from the
progressive teacher stream: speaker `teacher`, exactly one segment, no
timing fields? -/
def isTeacherChunkPkt : Packet → Bool
  | .transcript sp segs wt mf => sp = "teacher" ∧ segs.length = 1 ∧ wt = none ∧ mf = none
  | .complete _ _ => false

/-- `publish_transcript(room, speaker, text)` (lines 146-187), modelled as
the packets it publishes when the transport succeeds. Note the source reads
`seg.get("text", "")` although segments store their text under `"content"`,
so `full_text` is always a join of empty strings. -/
def publish_transcript (est : TimingEstimator) (speaker : String) (text : List Char) :
    List Packet :=
  let segs := detect_math_patterns text
  let isTeacher : Bool := speaker = "teacher" ∨ speaker = "ai"
  let full_text := joinSpace (segs.map fun _ => ([] : List Char))
  let wordTimings :=
    if isTeacher then some (est.estimate_word_timings full_text none).1 else none
  let mathFragments :=
    if isTeacher then
      (segs.find? fun s => s.type = "math" ∧ (s.latex.getD []) ≠ []).map
        fun s => parse_math_fragments (s.latex.getD [])
    else none
  [Packet.transcript speaker segs wordTimings mathFragments]

/-! ## Progressive streaming (agent.py `stream_teacher_response_progressively`,
lines 252-323)

The whole body runs inside one `try`; each `publish_data` call may raise.
`failsAt n` says whether the n-th publish attempt of this stream raises
(the attempt counter coincides with `chunks_sent`, which is incremented
only after a successful publish). A raise is caught by the function-level
`except`, so everything after the failing call is skipped. -/

/-- `word.endswith(('.', '!', '?', ',', ';', ':'))`. -/
def endsPunct (w : List Char) : Bool :=
  match w.getLast? with
  | some c => c = '.' ∨ c = '!' ∨ c = '?' ∨ c = ',' ∨ c = ';' ∨ c = ':'
  | none => false

/-- `any(indicator in word.lower() for indicator in [...])`. -/
def mathTrigger (w : List Char) : Bool :=
  containsCI "equation" w ∨ containsCI "formula" w ∨ containsCI "equals" w
    ∨ containsCI "x²" w ∨ containsCI "sqrt" w

/-- Tag each classified segment with the streaming metadata, indexing from
the running `chunks_sent` counter, and wrap it as the packet
`publish_segment` sends. -/
def tagSegs (N sent : Nat) : List Segment → List Packet
  | [] => []
  | s :: ss =>
    Packet.transcript "teacher"
      [{ s with streaming := true, chunk_index := some sent, total_estimated := some (N / 3) }]
      none none :: tagSegs N (sent + 1) ss

/-- Publish packets one at a time until the failure oracle raises: returns
(published packets, final counter, raised?). -/
def emitFrom (failsAt : Nat → Bool) : Nat → List Packet → List Packet × Nat × Bool
  | sent, [] => ([], sent, false)
  | sent, p :: ps =>
    if failsAt sent then ([], sent, true)
    else
      let pr := emitFrom failsAt (sent + 1) ps
      (p :: pr.1, pr.2.1, pr.2.2)

/-- The word loop of `stream_teacher_response_progressively`: accumulate a
chunk, flush it at a boundary (size ≥ 3 words / terminal punctuation /
math trigger / last word), classify with `process_mixed_content`, tag and
publish each resulting segment. Returns (published packets, final
`chunks_sent`, raised?). `N` is the total word count, used for
`total_estimated`. -/
def chunkLoopF (failsAt : Nat → Bool) (N : Nat) :
    List (List Char) → List Char → Nat → ℚ → List Packet × Nat × Bool
  | [], _cur, sent, _d => ([], sent, false)
  | w :: ws, cur, sent, d =>
    let cur2 := if cur = [] then w else cur ++ ' ' :: w
    let sizeHit : Bool := 3 ≤ (pySplit cur2).length
    let punctHit : Bool := endsPunct w
    let mHit : Bool := mathTrigger w
    let lastW : Bool := ws = []
    let send : Bool := sizeHit ∨ punctHit ∨ mHit ∨ lastW
    let d2 : ℚ := if ¬ sizeHit ∧ punctHit then mkRat 3 20 else d
    if send = true ∧ strip cur2 ≠ [] then
      let segs := process_mixed_content (strip cur2)
      let pkts := tagSegs N sent segs
      let res := emitFrom failsAt sent pkts
      if res.2.2 = true then (res.1, res.2.1, true)
      else
        let rest := chunkLoopF failsAt N ws [] res.2.1 (mkRat 2 25)
        (res.1 ++ rest.1, rest.2.1, rest.2.2)
    else chunkLoopF failsAt N ws cur2 sent d2

/-- `stream_teacher_response_progressively(room, full_response)`: the loop,
then one `transcript_complete` carrying the final `chunks_sent` — attempted
only if nothing raised earlier, and itself subject to the failure oracle. -/
def streamTeacher (failsAt : Nat → Bool) (full_response : List Char) : List Packet :=
  let words := pySplit full_response
  let res := chunkLoopF failsAt words.length words [] 0 (mkRat 2 25)
  if res.2.2 = true then res.1
  else if failsAt res.2.1 = true then res.1
  else res.1 ++ [Packet.complete "teacher" res.2.1]

/-- The always-succeeding transport. -/
def noFail : Nat → Bool := fun _ => false


/-! ## Bridge lemmas: computable rational arithmetic vs. field operations -/

theorem ratDen_ne (a : ℚ) : ((a.den : ℚ)) ≠ 0 := by
  exact_mod_cast a.den_nz

theorem ratNum_eq (a : ℚ) : (a.num : ℚ) = a * a.den :=
  (div_eq_iff (ratDen_ne a)).mp (Rat.num_div_den a)

theorem castToNat (z : ℤ) (h : 0 ≤ z) : ((z.toNat : ℕ) : ℚ) = (z : ℚ) := by
  rw [← Int.cast_natCast, Int.toNat_of_nonneg h]

theorem pyAdd_eq (a b : ℚ) : pyAdd a b = a + b := by
  rw [pyAdd, Rat.mkRat_eq_div]
  push_cast
  rw [div_eq_iff (mul_ne_zero (ratDen_ne a) (ratDen_ne b)), ratNum_eq, ratNum_eq]
  ring

theorem pyMul_eq (a b : ℚ) : pyMul a b = a * b := by
  rw [pyMul, Rat.mkRat_eq_div]
  push_cast
  rw [div_eq_iff (mul_ne_zero (ratDen_ne a) (ratDen_ne b)), ratNum_eq, ratNum_eq]
  ring

theorem pyDiv_eq (a b : ℚ) : pyDiv a b = a / b := by
  rw [pyDiv]
  rcases lt_trichotomy b.num 0 with hb | hb | hb
  · rw [if_neg (not_le.mpr hb), Rat.mkRat_eq_div]
    have hbne : b ≠ 0 := Rat.num_ne_zero.mp hb.ne
    push_cast
    rw [castToNat (-b.num) (by omega), Int.cast_neg]
    rw [div_eq_div_iff
        (mul_ne_zero (ratDen_ne a) (neg_ne_zero.mpr (Int.cast_ne_zero.mpr hb.ne)))
        hbne]
    rw [ratNum_eq a, ratNum_eq b]
    ring
  · have hbz : b = 0 := Rat.num_eq_zero.mp hb
    subst hbz
    simp [Rat.mkRat_eq_div]
  · rw [if_pos hb.le, Rat.mkRat_eq_div]
    have hbne : b ≠ 0 := Rat.num_ne_zero.mp hb.ne'
    push_cast
    rw [castToNat b.num hb.le]
    rw [div_eq_div_iff
        (mul_ne_zero (ratDen_ne a) (Int.cast_ne_zero.mpr hb.ne'))
        hbne]
    rw [ratNum_eq a, ratNum_eq b]
    ring

theorem pyInt_eq_floor {q : ℚ} (h : 0 ≤ q) : pyInt q = ⌊q⌋ := by
  rw [pyInt, Rat.floor_def, Int.tdiv_eq_ediv (Rat.num_nonneg.mpr h) (by positivity)]

/-! ## Helper lemmas on strings, splitting and timing -/

/-- A non-whitespace member of `t` survives `dropWhile isSpace`. -/
theorem mem_dropWhile_of_mem {c : Char} {t : List Char} (h : c ∈ t)
    (hc : isSpace c = false) : c ∈ t.dropWhile isSpace := by
  induction t with
  | nil => cases h
  | cons a r ih =>
    by_cases ha : isSpace a = true
    · rw [List.dropWhile_cons_of_pos ha]
      rcases List.mem_cons.mp h with rfl | hr
      · rw [hc] at ha; cases ha
      · exact ih hr
    · rw [List.dropWhile_cons_of_neg ha]
      exact h

/-- A non-whitespace member of `t` survives `strip`. -/
theorem mem_strip_of_mem {c : Char} {t : List Char} (h : c ∈ t)
    (hc : isSpace c = false) : c ∈ strip t := by
  unfold strip
  rw [List.mem_reverse]
  apply mem_dropWhile_of_mem _ hc
  rw [List.mem_reverse]
  exact mem_dropWhile_of_mem h hc

/-- If `strip t` is empty, every character of `t` is whitespace. -/
theorem all_space_of_strip_nil {t : List Char} (h : strip t = []) :
    ∀ c ∈ t, isSpace c = true := by
  intro c hc
  by_contra hns
  have := mem_strip_of_mem hc (Bool.eq_false_iff.mpr hns)
  rw [h] at this
  cases this

theorem pySplitAux_all_space {t : List Char} (h : ∀ c ∈ t, isSpace c = true) :
    pySplitAux t [] = [] := by
  induction t with
  | nil => rfl
  | cons a r ih =>
    have ha := h a (List.mem_cons_self a r)
    simp only [pySplitAux, ha, if_true, if_pos rfl]
    exact ih fun c hc => h c (List.mem_cons_of_mem a hc)

/-- Whitespace-only text splits into no words. -/
theorem pySplit_nil_of_strip_nil {t : List Char} (h : strip t = []) :
    pySplit t = [] :=
  pySplitAux_all_space (all_space_of_strip_nil h)

/-- Head of a `timingLoop` list starts at the truncated accumulator. -/
theorem timingLoop_head {mpw conf ct : ℚ} {ws : List (List Char)} {t0 : WordTiming}
    (h : (timingLoop mpw conf ct ws).head? = some t0) : t0.startTime = pyInt ct := by
  cases ws with
  | nil => simp [timingLoop] at h
  | cons w ws' =>
    simp only [timingLoop, List.head?_cons, Option.some.injEq] at h
    rw [← h]

/-- Adjacent entries of a `timingLoop` list are contiguous. -/
theorem timingLoop_chain {mpw conf : ℚ} {ws : List (List Char)} :
    ∀ (ct : ℚ) (i : Nat) (t1 t2 : WordTiming),
      (timingLoop mpw conf ct ws).get? i = some t1 →
      (timingLoop mpw conf ct ws).get? (i + 1) = some t2 →
      t1.endTime = t2.startTime := by
  induction ws with
  | nil => intro ct i t1 t2 h1 _; simp [timingLoop] at h1
  | cons w ws' ih =>
    intro ct i t1 t2 h1 h2
    cases i with
    | zero =>
      simp only [timingLoop, List.get?_cons_zero, Option.some.injEq] at h1
      simp only [timingLoop, List.get?_cons_succ] at h2
      have := timingLoop_head (by rw [← List.get?_zero]; exact h2)
      rw [this, ← h1]
    | succ j =>
      simp only [timingLoop, List.get?_cons_succ] at h1 h2
      exact ih _ j t1 t2 h1 h2

/-- The timing list returned by `estimate_word_timings` is a `timingLoop`
run from time `0` over the split words, for some rate and confidence. -/
theorem estimate_shape (est : TimingEstimator) (text : List Char) (dur : Option ℚ) :
    ∃ mpw conf, (est.estimate_word_timings text dur).1
      = timingLoop mpw conf 0 (pySplit text) := by
  unfold TimingEstimator.estimate_word_timings
  cases dur with
  | none => exact ⟨est.ms_per_word, mkRat 3 5, rfl⟩
  | some d =>
    by_cases hd : d = 0
    · simp only [hd, if_pos rfl]
      exact ⟨est.ms_per_word, mkRat 3 5, rfl⟩
    · simp only [if_neg hd]
      by_cases hw : pySplit text = []
      · simp only [hw, if_pos rfl]
        exact ⟨200, mkRat 4 5, rfl⟩
      · simp only [if_neg hw]
        exact ⟨_, mkRat 4 5, rfl⟩

/-- Duration sum of a math-free `timingLoop` run telescopes to the
truncated total. -/
theorem timingLoop_sum_nomath {mpw conf : ℚ} {ws : List (List Char)}
    (hm : ∀ w ∈ ws, isMathWord w = false) :
    ∀ ct : ℚ, durSum (timingLoop mpw conf ct ws)
      = pyInt (ct + ws.length * mpw) - pyInt ct := by
  induction ws with
  | nil => intro ct; simp [timingLoop, durSum]
  | cons w ws' ih =>
    intro ct
    have hw : isMathWord w = false := hm w (List.mem_cons_self w ws')
    have hm' : ∀ u ∈ ws', isMathWord u = false :=
      fun u hu => hm u (List.mem_cons_of_mem w hu)
    have hrec := ih hm' (pyAdd ct mpw)
    unfold durSum at hrec ⊢
    simp only [timingLoop, hw, Bool.false_eq_true, if_false, List.map_cons, List.sum_cons]
    rw [hrec, pyAdd_eq]
    have h2 : ct + mpw + (ws'.length : ℚ) * mpw = ct + (((w :: ws').length : ℕ) : ℚ) * mpw := by
      push_cast [List.length_cons]
      ring
    rw [h2]
    ring

/-! ## Claim theorems -/

/-- C10: the heuristic math-confidence score is the max of the base `0.5`
and the matched indicator values, never a sum; it always lies in
`{0.5, 0.8, 0.85, 0.9, 0.95}` and is strictly below the fixed `0.98`
assigned to delimiter-detected math. -/
theorem c10_heuristic_confidence_bounded (t : List Char) :
    (calculate_math_confidence t = 1/2 ∨ calculate_math_confidence t = 4/5
      ∨ calculate_math_confidence t = 17/20 ∨ calculate_math_confidence t = 9/10
      ∨ calculate_math_confidence t = 19/20)
    ∧ calculate_math_confidence t < 49/50 := by
  have h : ∀ b1 b2 b3 b4 b5 : Bool,
      (([((b1 : Bool), mkRat 19 20), (b2, mkRat 9 10), (b3, mkRat 4 5),
          (b4, mkRat 17 20), (b5, mkRat 19 20)].foldl
          (fun acc pc => if pc.1 then max acc pc.2 else acc) (mkRat 1 2)) = mkRat 1 2
        ∨ ([((b1 : Bool), mkRat 19 20), (b2, mkRat 9 10), (b3, mkRat 4 5),
          (b4, mkRat 17 20), (b5, mkRat 19 20)].foldl
          (fun acc pc => if pc.1 then max acc pc.2 else acc) (mkRat 1 2)) = mkRat 4 5
        ∨ ([((b1 : Bool), mkRat 19 20), (b2, mkRat 9 10), (b3, mkRat 4 5),
          (b4, mkRat 17 20), (b5, mkRat 19 20)].foldl
          (fun acc pc => if pc.1 then max acc pc.2 else acc) (mkRat 1 2)) = mkRat 17 20
        ∨ ([((b1 : Bool), mkRat 19 20), (b2, mkRat 9 10), (b3, mkRat 4 5),
          (b4, mkRat 17 20), (b5, mkRat 19 20)].foldl
          (fun acc pc => if pc.1 then max acc pc.2 else acc) (mkRat 1 2)) = mkRat 9 10
        ∨ ([((b1 : Bool), mkRat 19 20), (b2, mkRat 9 10), (b3, mkRat 4 5),
          (b4, mkRat 17 20), (b5, mkRat 19 20)].foldl
          (fun acc pc => if pc.1 then max acc pc.2 else acc) (mkRat 1 2)) = mkRat 19 20)
      ∧ ([((b1 : Bool), mkRat 19 20), (b2, mkRat 9 10), (b3, mkRat 4 5),
          (b4, mkRat 17 20), (b5, mkRat 19 20)].foldl
          (fun acc pc => if pc.1 then max acc pc.2 else acc) (mkRat 1 2)) < mkRat 49 50 := by
    decide
  have h2 := h (confPat1 t) (confPat2 t) (confPat3 t) (confPat4 t) (confPat5 t)
  have e12 : (mkRat 1 2 : ℚ) = 1/2 := by rw [Rat.mkRat_eq_div]; norm_num
  have e45 : (mkRat 4 5 : ℚ) = 4/5 := by rw [Rat.mkRat_eq_div]; norm_num
  have e1720 : (mkRat 17 20 : ℚ) = 17/20 := by rw [Rat.mkRat_eq_div]; norm_num
  have e910 : (mkRat 9 10 : ℚ) = 9/10 := by rw [Rat.mkRat_eq_div]; norm_num
  have e1920 : (mkRat 19 20 : ℚ) = 19/20 := by rw [Rat.mkRat_eq_div]; norm_num
  have e4950 : (mkRat 49 50 : ℚ) = 49/50 := by rw [Rat.mkRat_eq_div]; norm_num
  rw [← e12, ← e45, ← e1720, ← e910, ← e1920, ← e4950]
  exact h2

/-- C3: on non-empty pre-trimmed input, `detect_math_patterns` returns
exactly one segment — `math` when some recognized indicator matches,
`text` otherwise — whose content is the (non-whitespace) input itself, so
no returned segment has empty or whitespace-only content. -/
theorem c3_classify_single_segment (t : List Char) (h1 : t ≠ []) (h2 : strip t = t) :
    (detect_math_patterns t).map Segment.content = [t]
    ∧ (detect_math_patterns t).map Segment.type
        = [if has_math t = true then "math" else "text"]
    ∧ strip t ≠ [] := by
  refine ⟨?_, ?_, by rw [h2]; exact h1⟩ <;>
    (unfold detect_math_patterns
     by_cases hm : has_math t = true
     · rw [if_pos hm]
       try rw [if_pos hm]
       rfl
     · rw [if_neg hm]
       try rw [if_neg hm]
       rfl)

theorem c3_witness :
    ("x squared".toList ≠ [] ∧ strip "x squared".toList = "x squared".toList)
    ∧ ((detect_math_patterns "x squared".toList).map Segment.content = ["x squared".toList]
      ∧ (detect_math_patterns "x squared".toList).map Segment.type
          = [if has_math "x squared".toList = true then "math" else "text"]
      ∧ strip "x squared".toList ≠ []) :=
  ⟨⟨by decide, by decide⟩, c3_classify_single_segment _ (by decide) (by decide)⟩

/-- C4 counterexample: `convert_to_latex` is not idempotent in general. The
Greek-letter rule re-matches inside its own output: `"pi"` converts to
`\pi`, and converting `\pi` again yields `\\pi`, because the word boundary
`\b` still holds between the inserted backslash and `pi`. -/
theorem c4_counterexample :
    convert_to_latex (convert_to_latex "pi".toList) ≠ convert_to_latex "pi".toList := by
  decide

/-- C4 (amended): `convert_to_latex` is idempotent on already-canonical
input, where canonical means a fixed point of the converter: if
`convert_to_latex x = x` then converting the conversion changes nothing.
Unconditional idempotence fails (see the counterexample). -/
theorem c4_idempotent_on_canonical (x : List Char) (h : convert_to_latex x = x) :
    convert_to_latex (convert_to_latex x) = convert_to_latex x := by
  rw [h]
  exact h

theorem c4_witness :
    convert_to_latex "x^2".toList = "x^2".toList
    ∧ convert_to_latex (convert_to_latex "x^2".toList) = convert_to_latex "x^2".toList :=
  ⟨by decide, c4_idempotent_on_canonical _ (by decide)⟩

/-- C5: word timings are contiguous and non-overlapping — the first entry
starts at offset 0, and each entry's end offset equals the next entry's
start offset, for any input text and optional audio duration (both offsets
truncate the same accumulated float, so truncation cannot open a gap). -/
theorem c5_word_timings_contiguous (est : TimingEstimator) (text : List Char)
    (dur : Option ℚ) :
    (∀ t0, ((est.estimate_word_timings text dur).1.head? = some t0) → t0.startTime = 0)
    ∧ ∀ i t1 t2, ((est.estimate_word_timings text dur).1.get? i = some t1) →
        ((est.estimate_word_timings text dur).1.get? (i + 1) = some t2) →
        t1.endTime = t2.startTime := by
  obtain ⟨mpw, conf, hsh⟩ := estimate_shape est text dur
  rw [hsh]
  constructor
  · intro t0 h0
    rw [timingLoop_head h0]
    decide
  · intro i t1 t2 h1 h2
    exact timingLoop_chain 0 i t1 t2 h1 h2

theorem c5_witness :
    (((TimingEstimator.init 150).estimate_word_timings "a b".toList none).1.head?
      = some { word := "a".toList, startTime := 0, endTime := 400,
               confidence := mkRat 3 5, isMath := false })
    ∧ ({ word := "a".toList, startTime := 0, endTime := 400,
         confidence := mkRat 3 5, isMath := false } : WordTiming).startTime = 0
    ∧ (((TimingEstimator.init 150).estimate_word_timings "a b".toList none).1.get? 0
      = some { word := "a".toList, startTime := 0, endTime := 400,
               confidence := mkRat 3 5, isMath := false })
    ∧ (((TimingEstimator.init 150).estimate_word_timings "a b".toList none).1.get? 1
      = some { word := "b".toList, startTime := 400, endTime := 800,
               confidence := mkRat 3 5, isMath := false })
    ∧ ({ word := "a".toList, startTime := 0, endTime := 400,
         confidence := mkRat 3 5, isMath := false } : WordTiming).endTime
      = ({ word := "b".toList, startTime := 400, endTime := 800,
           confidence := mkRat 3 5, isMath := false } : WordTiming).startTime :=
  ⟨by decide,
   (c5_word_timings_contiguous (TimingEstimator.init 150) "a b".toList none).1 _ (by decide),
   by decide, by decide,
   (c5_word_timings_contiguous (TimingEstimator.init 150) "a b".toList none).2 0 _ _
     (by decide) (by decide)⟩

/-- C6 counterexample: with a supplied audio duration of 1 second over the
four math words of `"1+1 2+2 3+3 4+4"`, every word is a math token and gets
the 1.5× duration, so the summed durations are 1500 ms while the audio
duration is 1000 ms — an error of 500 ms, larger than any single word's
duration (375 ms), so not within one word's rounding. -/
theorem c6_counterexample :
    durSum ((TimingEstimator.init 150).estimate_word_timings
        "1+1 2+2 3+3 4+4".toList (some 1)).1 = 1500
    ∧ ((TimingEstimator.init 150).estimate_word_timings
        "1+1 2+2 3+3 4+4".toList (some 1)).1.map (fun t => t.endTime - t.startTime)
        = [375, 375, 375, 375]
    ∧ ((1 : ℚ) * 1000 = 1000)
    ∧ ((1500 : ℤ) - 1000 = 500) ∧ ((375 : ℤ) < 500) :=
  ⟨by decide, by decide, by norm_num, by decide, by decide⟩

/-- C6 (amended): when an audio duration `D` (seconds) is supplied and no
word is classified as a math token, the summed word durations equal
`⌊D·1000⌋`, i.e. the audio duration in milliseconds to within one unit of
rounding. When math words are present the 1.5× multiplier inflates the sum
beyond `D` (see the counterexample), so the property holds only for
math-free text. -/
theorem c6_rescaled_sum_eq_duration (est : TimingEstimator) (text : List Char) (D : ℚ)
    (hw : pySplit text ≠ []) (hD : 0 < D)
    (hm : ∀ w ∈ pySplit text, isMathWord w = false) :
    durSum ((est.estimate_word_timings text (some D)).1) = pyInt (D * 1000)
    ∧ (D * 1000 : ℚ) - 1 < (pyInt (D * 1000) : ℚ)
    ∧ ((pyInt (D * 1000) : ℚ)) ≤ D * 1000 := by
  have hD0 : D ≠ 0 := hD.ne'
  have hlen : ((pySplit text).length : ℚ) ≠ 0 := by
    have : (pySplit text).length ≠ 0 := fun h => hw (List.length_eq_zero.mp h)
    exact_mod_cast this
  have hpos : (0 : ℚ) ≤ D * 1000 := by positivity
  have hfl : pyInt (D * 1000) = ⌊D * 1000⌋ := pyInt_eq_floor hpos
  refine ⟨?_, ?_, ?_⟩
  · unfold TimingEstimator.estimate_word_timings
    simp only [if_neg hD0, if_neg hw]
    rw [timingLoop_sum_nomath hm 0]
    rw [pyDiv_eq, pyMul_eq]
    have harg : (0 : ℚ) + ((pySplit text).length : ℚ) * (D * 1000 / ((pySplit text).length : ℚ))
        = D * 1000 := by
      field_simp
    rw [harg]
    have h0 : pyInt 0 = 0 := by decide
    rw [h0, sub_zero]
  · rw [hfl]
    exact Int.sub_one_lt_floor (D * 1000)
  · rw [hfl]
    exact Int.floor_le (D * 1000)

theorem c6_witness :
    pySplit "a b c".toList ≠ [] ∧ (0 : ℚ) < 1
    ∧ (∀ w ∈ pySplit "a b c".toList, isMathWord w = false)
    ∧ (durSum ((TimingEstimator.init 150).estimate_word_timings
          "a b c".toList (some 1)).1 = pyInt ((1 : ℚ) * 1000)
      ∧ ((1 : ℚ) * 1000) - 1 < (pyInt ((1 : ℚ) * 1000) : ℚ)
      ∧ ((pyInt ((1 : ℚ) * 1000) : ℚ)) ≤ (1 : ℚ) * 1000) :=
  ⟨by decide, by norm_num, by decide,
   c6_rescaled_sum_eq_duration (TimingEstimator.init 150) "a b c".toList 1
     (by decide) (by norm_num) (by decide)⟩

/-- C7 counterexample: a call with a supplied audio duration persistently
overwrites the estimator state. After estimating `"a b"` with a 1-second
duration (rate 500 ms/word), a later call without a duration paces at
500 ms/word instead of the configured default 400 ms/word, so it returns
different timings than it would have had the rescaled call never
happened. -/
theorem c7_counterexample :
    ((((TimingEstimator.init 150).estimate_word_timings "a b".toList (some 1)).2
        ).estimate_word_timings "a".toList none).1
      ≠ (((TimingEstimator.init 150)).estimate_word_timings "a".toList none).1 := by
  decide

/-- C7 (amended): a call with a truthy audio duration `D` over a non-empty
word list permanently sets the instance attribute `ms_per_word` to
`D·1000 / wordCount` (the configured `wpm` is untouched); subsequent calls
without a duration use this overwritten rate, not the configured default. -/
theorem c7_rescale_mutates_state (est : TimingEstimator) (text : List Char) (D : ℚ)
    (hw : pySplit text ≠ []) (hD : D ≠ 0) :
    (est.estimate_word_timings text (some D)).2
      = { est with ms_per_word := D * 1000 / ((pySplit text).length : ℚ) } := by
  unfold TimingEstimator.estimate_word_timings
  simp only [if_neg hD, if_neg hw]
  rw [pyDiv_eq, pyMul_eq]

theorem c7_witness :
    pySplit "a b".toList ≠ [] ∧ (1 : ℚ) ≠ 0
    ∧ ((TimingEstimator.init 150).estimate_word_timings "a b".toList (some 1)).2
        = { TimingEstimator.init 150 with
            ms_per_word := (1 : ℚ) * 1000 / ((pySplit "a b".toList).length : ℚ) } :=
  ⟨by decide, by norm_num,
   c7_rescale_mutates_state (TimingEstimator.init 150) "a b".toList 1
     (by decide) (by norm_num)⟩

/-- C9 counterexample: whitespace-only input is not a silent no-op. For the
single-space text, `publish_transcript` publishes one `transcript` packet
(carrying a whitespace text segment), and the progressive teacher stream
publishes one `transcript_complete` packet with `total_chunks = 0`. -/
theorem c9_counterexample :
    (publish_transcript (TimingEstimator.init 150) "student" " ".toList).length = 1
    ∧ streamTeacher noFail " ".toList = [Packet.complete "teacher" 0] := by
  constructor
  · rfl
  · decide

/-- C9 (amended): for every input that is empty or whitespace-only after
trimming, `publish_transcript` still publishes exactly one `transcript`
packet, and the progressive teacher stream still publishes exactly one
`transcript_complete` packet with zero chunks — the input is not filtered
and processing is not a silent no-op. -/
theorem c9_whitespace_still_publishes (est : TimingEstimator) (speaker : String)
    (text : List Char) (h : strip text = []) :
    (publish_transcript est speaker text).length = 1
    ∧ streamTeacher noFail text = [Packet.complete "teacher" 0] := by
  refine ⟨rfl, ?_⟩
  have hw : pySplit text = [] := pySplit_nil_of_strip_nil h
  unfold streamTeacher
  rw [hw]
  rfl

theorem c9_witness :
    strip "  ".toList = []
    ∧ ((publish_transcript (TimingEstimator.init 150) "student" "  ".toList).length = 1
      ∧ streamTeacher noFail "  ".toList = [Packet.complete "teacher" 0]) :=
  ⟨by decide,
   c9_whitespace_still_publishes (TimingEstimator.init 150) "student" "  ".toList
     (by decide)⟩

/-! ## Streaming-loop lemmas -/

theorem tagSegs_length (N : Nat) : ∀ (segs : List Segment) (sent : Nat),
    (tagSegs N sent segs).length = segs.length := by
  intro segs
  induction segs with
  | nil => intro sent; rfl
  | cons s ss ih => intro sent; simp [tagSegs, ih]

theorem tagSegs_get (N : Nat) : ∀ (segs : List Segment) (sent j : Nat) (p : Packet),
    (tagSegs N sent segs).get? j = some p →
    isTeacherChunkPkt p = true
    ∧ p.segList.map Segment.chunk_index = [some (sent + j)]
    ∧ p.segList.map Segment.streaming = [true]
    ∧ p.segList.map Segment.total_estimated = [some (N / 3)] := by
  intro segs
  induction segs with
  | nil => intro sent j p hp; simp [tagSegs] at hp
  | cons s ss ih =>
    intro sent j p hp
    cases j with
    | zero =>
      simp only [tagSegs, List.get?_cons_zero, Option.some.injEq] at hp
      subst hp
      refine ⟨by simp [isTeacherChunkPkt], ?_, ?_, ?_⟩ <;> simp [Packet.segList]
    | succ j' =>
      simp only [tagSegs, List.get?_cons_succ] at hp
      have h := ih (sent + 1) j' p hp
      have e : sent + 1 + j' = sent + (j' + 1) := by omega
      rw [e] at h
      exact h

theorem emitFrom_noFail : ∀ (pkts : List Packet) (sent : Nat),
    emitFrom noFail sent pkts = (pkts, sent + pkts.length, false) := by
  intro pkts
  induction pkts with
  | nil => intro sent; rfl
  | cons p ps ih =>
    intro sent
    simp only [emitFrom, noFail, Bool.false_eq_true, if_false, ih]
    simp only [Prod.mk.injEq, List.length_cons, true_and, and_true]
    omega

/-- If the failure oracle is silent on the whole index range of the packet
list, `emitFrom` publishes everything. -/
theorem emitFrom_ok : ∀ (pkts : List Packet) (sent : Nat) (failsAt : Nat → Bool),
    (∀ m, sent ≤ m → m < sent + pkts.length → failsAt m = false) →
    emitFrom failsAt sent pkts = (pkts, sent + pkts.length, false) := by
  intro pkts
  induction pkts with
  | nil => intro sent failsAt _; rfl
  | cons p ps ih =>
    intro sent failsAt h
    have h0 : failsAt sent = false := h sent le_rfl (by simp)
    simp only [emitFrom, h0, Bool.false_eq_true, if_false]
    rw [ih (sent + 1) failsAt (fun m h1 h2 => h m (by omega) (by simp at h2 ⊢; omega))]
    simp only [Prod.mk.injEq, List.length_cons, true_and, and_true]
    omega

/-- If the first failing attempt index `n` falls inside the packet list,
`emitFrom` publishes exactly the packets before it and reports the raise. -/
theorem emitFrom_fail : ∀ (pkts : List Packet) (sent : Nat) (failsAt : Nat → Bool) (n : Nat),
    sent ≤ n → n < sent + pkts.length →
    (∀ m, m < n → failsAt m = false) → failsAt n = true →
    emitFrom failsAt sent pkts = (pkts.take (n - sent), n, true) := by
  intro pkts
  induction pkts with
  | nil => intro sent failsAt n h1 h2 _ _; simp at h2; omega
  | cons p ps ih =>
    intro sent failsAt n h1 h2 h3 h4
    rcases Nat.eq_or_lt_of_le h1 with rfl | hlt
    · simp only [emitFrom, h4, if_true, Nat.sub_self, List.take_zero]
    · have h0 : failsAt sent = false := h3 sent hlt
      simp only [emitFrom, h0, Bool.false_eq_true, if_false]
      rw [ih (sent + 1) failsAt n (by omega) (by simp at h2 ⊢; omega) h3 h4]
      have e : n - sent = (n - (sent + 1)) + 1 := by omega
      rw [e]
      rfl

/-- Invariants of the no-failure chunk loop: it never raises, the final
`chunks_sent` counter is the initial counter plus the number of packets
published, and the `j`-th published packet is a teacher chunk packet with
`chunk_index = sent + j`, `streaming = true` and the word-count estimate. -/
theorem chunkLoop_noFail_inv (N : Nat) :
    ∀ (ws : List (List Char)) (cur : List Char) (sent : Nat) (d : ℚ),
      (chunkLoopF noFail N ws cur sent d).2.2 = false
      ∧ (chunkLoopF noFail N ws cur sent d).2.1
          = sent + (chunkLoopF noFail N ws cur sent d).1.length
      ∧ ∀ j p, (chunkLoopF noFail N ws cur sent d).1.get? j = some p →
          isTeacherChunkPkt p = true
          ∧ p.segList.map Segment.chunk_index = [some (sent + j)]
          ∧ p.segList.map Segment.streaming = [true]
          ∧ p.segList.map Segment.total_estimated = [some (N / 3)] := by
  intro ws
  induction ws with
  | nil =>
    intro cur sent d
    refine ⟨rfl, by simp [chunkLoopF], ?_⟩
    intro j p hp
    simp [chunkLoopF] at hp
  | cons w ws ih =>
    intro cur sent d
    simp only [chunkLoopF]
    set cur2 := if cur = [] then w else cur ++ ' ' :: w with hcur2
    set pkts := tagSegs N sent (process_mixed_content (strip cur2)) with hpkts
    split
    · rw [emitFrom_noFail]
      simp only
      rw [if_neg (by simp)]
      simp only
      obtain ⟨h1, h2, h3⟩ := ih [] (sent + pkts.length) (mkRat 2 25)
      refine ⟨h1, ?_, ?_⟩
      · rw [h2]
        simp only [List.length_append]
        omega
      · intro j p hp
        rcases Nat.lt_or_ge j pkts.length with hj | hj
        · rw [List.get?_append hj] at hp
          exact tagSegs_get N _ sent j p hp
        · rw [List.get?_append_right hj] at hp
          have h := h3 _ p hp
          have e : sent + pkts.length + (j - pkts.length) = sent + j := by omega
          rw [e] at h
          exact h
    · exact ih _ sent _

/-- Under the always-succeeding transport, the teacher stream is the chunk
packets followed by exactly one completion packet carrying their count. -/
theorem streamTeacher_noFail_eq (text : List Char) :
    streamTeacher noFail text
      = (chunkLoopF noFail (pySplit text).length (pySplit text) [] 0 (mkRat 2 25)).1
        ++ [Packet.complete "teacher"
            (chunkLoopF noFail (pySplit text).length (pySplit text) [] 0 (mkRat 2 25)).1.length] := by
  obtain ⟨h1, h2, _⟩ :=
    chunkLoop_noFail_inv (pySplit text).length (pySplit text) [] 0 (mkRat 2 25)
  simp only [streamTeacher, h1, h2, noFail, Bool.false_eq_true, if_false, Nat.zero_add]

/-- C1: for a committed teacher utterance whose stream runs to completion
with no transport failure, every packet except the last is a single-segment
teacher chunk packet tagged `streaming = true`, with `chunk_index` equal to
its position `j` (so indices are exactly 0,1,2,... with no gaps) and
`total_estimated = wordCount / minWordsPerChunk` (floor division, minimum 3);
the last packet is the unique `transcript_complete`, whose `totalChunks`
equals the number of chunk packets actually emitted. -/
theorem c1_progressive_stream_shape (text : List Char) (j : Nat) (p : Packet)
    (hp : (streamTeacher noFail text).get? j = some p)
    (hj : j + 1 < (streamTeacher noFail text).length) :
    (streamTeacher noFail text).getLast?
        = some (Packet.complete "teacher" ((streamTeacher noFail text).length - 1))
    ∧ isTeacherChunkPkt p = true
    ∧ p.segList.map Segment.chunk_index = [some j]
    ∧ p.segList.map Segment.streaming = [true]
    ∧ p.segList.map Segment.total_estimated = [some ((pySplit text).length / 3)] := by
  obtain ⟨h1, h2, h3⟩ :=
    chunkLoop_noFail_inv (pySplit text).length (pySplit text) [] 0 (mkRat 2 25)
  rw [streamTeacher_noFail_eq] at hp hj ⊢
  have hlen : ((chunkLoopF noFail (pySplit text).length (pySplit text) [] 0 (mkRat 2 25)).1
      ++ [Packet.complete "teacher"
          (chunkLoopF noFail (pySplit text).length (pySplit text) [] 0 (mkRat 2 25)).1.length]).length
      = (chunkLoopF noFail (pySplit text).length (pySplit text) [] 0 (mkRat 2 25)).1.length + 1 := by
    simp
  refine ⟨?_, ?_⟩
  · rw [List.getLast?_concat, hlen]
    simp
  · have hjlt : j < (chunkLoopF noFail (pySplit text).length (pySplit text) [] 0
        (mkRat 2 25)).1.length := by
      rw [hlen] at hj
      omega
    rw [List.get?_append hjlt] at hp
    have h := h3 j p hp
    rw [Nat.zero_add] at h
    exact h

theorem c1_witness :
    ((streamTeacher noFail "one two three four five six".toList).get? 0
      = some (Packet.transcript "teacher"
          [{ type := "text", content := "one two three".toList, streaming := true,
             chunk_index := some 0, total_estimated := some 2 }] none none))
    ∧ (0 + 1 < (streamTeacher noFail "one two three four five six".toList).length)
    ∧ ((streamTeacher noFail "one two three four five six".toList).getLast?
        = some (Packet.complete "teacher"
            ((streamTeacher noFail "one two three four five six".toList).length - 1))
      ∧ isTeacherChunkPkt (Packet.transcript "teacher"
          [{ type := "text", content := "one two three".toList, streaming := true,
             chunk_index := some 0, total_estimated := some 2 }] none none) = true
      ∧ (Packet.transcript "teacher"
          [{ type := "text", content := "one two three".toList, streaming := true,
             chunk_index := some 0, total_estimated := some 2 }] none none).segList.map
            Segment.chunk_index = [some 0]
      ∧ (Packet.transcript "teacher"
          [{ type := "text", content := "one two three".toList, streaming := true,
             chunk_index := some 0, total_estimated := some 2 }] none none).segList.map
            Segment.streaming = [true]
      ∧ (Packet.transcript "teacher"
          [{ type := "text", content := "one two three".toList, streaming := true,
             chunk_index := some 0, total_estimated := some 2 }] none none).segList.map
            Segment.total_estimated
          = [some ((pySplit "one two three four five six".toList).length / 3)]) :=
  ⟨by decide, by decide,
   c1_progressive_stream_shape "one two three four five six".toList 0 _
     (by decide) (by decide)⟩

/-- Behaviour of the chunk loop under a transport whose first failing
attempt is `n`: if all the loop's publish attempts have index below `n` it
behaves exactly like the no-failure loop; if attempt `n` falls inside the
loop's publishes, exactly the packets before attempt `n` are published and
the raise is reported, aborting the rest. -/
theorem chunkLoop_fail_take (N : Nat) :
    ∀ (ws : List (List Char)) (cur : List Char) (sent : Nat) (d : ℚ)
      (failsAt : Nat → Bool) (n : Nat),
      (∀ m, m < n → failsAt m = false) → failsAt n = true → sent ≤ n →
      (sent + (chunkLoopF noFail N ws cur sent d).1.length ≤ n →
        chunkLoopF failsAt N ws cur sent d
          = ((chunkLoopF noFail N ws cur sent d).1,
             sent + (chunkLoopF noFail N ws cur sent d).1.length, false))
      ∧ (n < sent + (chunkLoopF noFail N ws cur sent d).1.length →
        chunkLoopF failsAt N ws cur sent d
          = ((chunkLoopF noFail N ws cur sent d).1.take (n - sent), n, true)) := by
  intro ws
  induction ws with
  | nil =>
    intro cur sent d failsAt n hlow hfail hsn
    constructor
    · intro _
      simp [chunkLoopF]
    · intro hcontra
      simp [chunkLoopF] at hcontra
      omega
  | cons w ws ih =>
    intro cur sent d failsAt n hlow hfail hsn
    simp only [chunkLoopF]
    set cur2 := if cur = [] then w else cur ++ ' ' :: w with hcur2
    set pkts := tagSegs N sent (process_mixed_content (strip cur2)) with hpkts
    split
    · rw [emitFrom_noFail]
      rw [if_neg (show ¬((pkts, sent + pkts.length, false).2.2 = true) by simp)]
      simp only
      rcases Nat.lt_or_ge n (sent + pkts.length) with hn | hn
      · rw [emitFrom_fail pkts sent failsAt n hsn hn hlow hfail]
        rw [if_pos (show (pkts.take (n - sent), n, true).2.2 = true from rfl)]
        constructor
        · intro hge
          simp only [List.length_append] at hge
          omega
        · intro _
          rw [List.take_append_of_le_length (by omega : n - sent ≤ pkts.length)]
      · rw [emitFrom_ok pkts sent failsAt (fun m _ hm2 => hlow m (by omega))]
        rw [if_neg (show ¬((pkts, sent + pkts.length, false).2.2 = true) by simp)]
        simp only
        obtain ⟨ih1, ih2⟩ := ih [] (sent + pkts.length) (mkRat 2 25) failsAt n hlow hfail hn
        constructor
        · intro hge
          simp only [List.length_append] at hge
          rw [ih1 (by omega)]
          simp only [Prod.mk.injEq, List.length_append, true_and, and_true]
          omega
        · intro hlt
          simp only [List.length_append] at hlt
          rw [ih2 (by omega)]
          rw [List.take_append_eq_append_take,
            List.take_of_length_le (by omega : pkts.length ≤ n - sent)]
          have e : n - sent - pkts.length = n - (sent + pkts.length) := by omega
          rw [e]
    · exact ih cur2 sent _ failsAt n hlow hfail hsn

/-- C8 counterexample: a single publish failure aborts the whole remaining
stream. For the six-word utterance the no-failure stream publishes three
packets (two chunks and one `transcript_complete`); when the very first
publish raises, nothing at all is published — the second chunk and the
completion marker are never attempted, because the `try` wraps the whole
function body rather than each packet. -/
theorem c8_counterexample :
    (streamTeacher noFail "one two three four five six".toList).length = 3
    ∧ streamTeacher (fun m => decide (m = 0)) "one two three four five six".toList = [] := by
  constructor
  · decide
  · decide

/-- C8 (amended): publish failures are caught only by the function-level
handler, so they are fatal to the remainder of the stream: if the first
failing publish attempt has index `n` (and `n` falls within the attempts of
the stream), the published packets are exactly the first `n` packets of the
no-failure run — every later chunk and the `transcript_complete` marker are
skipped. The error still does not propagate to the caller. -/
theorem c8_publish_failure_aborts_stream (text : List Char) (failsAt : Nat → Bool) (n : Nat)
    (hlow : ∀ m, m < n → failsAt m = false) (hfail : failsAt n = true)
    (hn : n < (streamTeacher noFail text).length) :
    streamTeacher failsAt text = (streamTeacher noFail text).take n := by
  obtain ⟨hr, hc, _⟩ :=
    chunkLoop_noFail_inv (pySplit text).length (pySplit text) [] 0 (mkRat 2 25)
  obtain ⟨hpart1, hpart2⟩ :=
    chunkLoop_fail_take (pySplit text).length (pySplit text) [] 0 (mkRat 2 25) failsAt n
      hlow hfail (Nat.zero_le n)
  rw [streamTeacher_noFail_eq] at hn ⊢
  simp only [List.length_append, List.length_cons, List.length_nil] at hn
  rcases Nat.lt_or_ge n
      (chunkLoopF noFail (pySplit text).length (pySplit text) [] 0 (mkRat 2 25)).1.length
    with hlt | hge
  · have hres := hpart2 (by omega)
    simp only [streamTeacher, hres]
    rw [List.take_append_of_le_length (le_of_lt hlt)]
    simp
  · have hn_eq : n
        = (chunkLoopF noFail (pySplit text).length (pySplit text) [] 0 (mkRat 2 25)).1.length := by
      omega
    have hres := hpart1 (by omega)
    simp only [streamTeacher, hres]
    rw [show failsAt (0 + (chunkLoopF noFail (pySplit text).length (pySplit text) [] 0
        (mkRat 2 25)).1.length) = true from by rw [Nat.zero_add, ← hn_eq]; exact hfail]
    simp only [if_true]
    rw [List.take_append_of_le_length (by omega), hn_eq]
    simp [List.take_of_length_le]

theorem c8_witness :
    (∀ m, m < 1 → (fun m => decide (1 ≤ m)) m = false)
    ∧ ((fun m => decide (1 ≤ m)) 1 = true)
    ∧ (1 < (streamTeacher noFail "one two three four five six".toList).length)
    ∧ streamTeacher (fun m => decide (1 ≤ m)) "one two three four five six".toList
        = (streamTeacher noFail "one two three four five six".toList).take 1 :=
  ⟨by decide, by decide, by decide,
   c8_publish_failure_aborts_stream "one two three four five six".toList
     (fun m => decide (1 ≤ m)) 1 (by decide) (by decide) (by decide)⟩

/-! ## Dollar-span scanner lemmas (for the delimited-math claim) -/

theorem grabGroup_clean : ∀ {m b : List Char}, '$' ∉ m → '\n' ∉ m → '$' ∉ b →
    grabGroup (m ++ '$' :: b) = some (m, b) := by
  intro m
  induction m with
  | nil =>
    intro b _ _ hb
    simp only [List.nil_append, grabGroup, if_pos rfl]
    cases b with
    | nil => rfl
    | cons c2 r2 =>
      have hc2 : c2 ≠ '$' := fun h => hb (h ▸ List.mem_cons_self c2 r2)
      simp [hc2]
  | cons c m' ih =>
    intro b hm hn hb
    have hc : c ≠ '$' := fun h => hm (h ▸ List.mem_cons_self c m')
    have hcn : c ≠ '\n' := fun h => hn (h ▸ List.mem_cons_self c m')
    have hm' : '$' ∉ m' := fun h => hm (List.mem_cons_of_mem c h)
    have hn' : '\n' ∉ m' := fun h => hn (List.mem_cons_of_mem c h)
    simp only [List.cons_append, grabGroup, if_neg hc, if_neg hcn, List.append_eq,
      ih hm' hn' hb]
    rfl

theorem matchHere_cons_ne {c : Char} {rest : List Char} (hc : c ≠ '$') :
    matchHere (c :: rest) = none := by
  simp [matchHere, hc]

theorem matchHere_at {m b : List Char} (hne : m ≠ []) (hm : '$' ∉ m) (hn : '\n' ∉ m)
    (hb : '$' ∉ b) : matchHere ('$' :: (m ++ '$' :: b)) = some (m, b) := by
  cases m with
  | nil => exact absurd rfl hne
  | cons c m' =>
    have hc : c ≠ '$' := fun h => hm (h ▸ List.mem_cons_self c m')
    simp only [matchHere, if_pos rfl, List.cons_append, if_neg hc]
    exact grabGroup_clean hm hn hb

theorem scanSpans_none : ∀ {t : List Char}, '$' ∉ t → scanSpans t = (t, none) := by
  intro t
  induction t with
  | nil => intro _; rfl
  | cons c t' ih =>
    intro h
    have hc : c ≠ '$' := fun hx => h (hx ▸ List.mem_cons_self c t')
    have h' : '$' ∉ t' := fun hx => h (List.mem_cons_of_mem c hx)
    simp only [scanSpans, matchHere_cons_ne hc, ih h']

theorem scanSpans_skip : ∀ {a u : List Char} {g r : List Char}, '$' ∉ a →
    matchHere u = some (g, r) → scanSpans (a ++ u) = (a, some (g, r)) := by
  intro a
  induction a with
  | nil =>
    intro u g r _ hu
    cases u with
    | nil => simp [matchHere] at hu
    | cons c ut => simp only [List.nil_append, scanSpans, hu]
  | cons c a' ih =>
    intro u g r ha hu
    have hc : c ≠ '$' := fun hx => ha (hx ▸ List.mem_cons_self c a')
    have ha' : '$' ∉ a' := fun hx => ha (List.mem_cons_of_mem c hx)
    simp only [List.cons_append, scanSpans, matchHere_cons_ne hc, List.append_eq, ih ha' hu]

theorem splitSpansAux_nodollar : ∀ (f : Nat) {t : List Char}, '$' ∉ t →
    splitSpansAux f t = ([], t) := by
  intro f
  cases f with
  | zero => intro t _; rfl
  | succ f' => intro t h; simp only [splitSpansAux, scanSpans_none h]

theorem splitSpansAux_single (f : Nat) {a m b : List Char}
    (ha : '$' ∉ a) (hm : '$' ∉ m) (hn : '\n' ∉ m) (hb : '$' ∉ b) (hne : m ≠ []) :
    splitSpansAux (f + 1) (a ++ '$' :: (m ++ '$' :: b)) = ([(a, m)], b) := by
  simp only [splitSpansAux, scanSpans_skip ha (matchHere_at hne hm hn hb),
    splitSpansAux_nodollar f hb]

/-! ## Classification segment lemmas -/

theorem detect_content (u : List Char) : ∀ s ∈ detect_math_patterns u, s.content = u := by
  intro s hs
  unfold detect_math_patterns at hs
  split at hs <;> (rw [List.mem_singleton] at hs; subst hs; rfl)

theorem detect_source_none (u : List Char) :
    ∀ s ∈ detect_math_patterns u, s.source = none := by
  intro s hs
  unfold detect_math_patterns at hs
  split at hs <;> (rw [List.mem_singleton] at hs; subst hs; rfl)

theorem strip_strip_ne {t : List Char} (h : strip t ≠ []) : strip (strip t) ≠ [] := by
  have h2 : (t.dropWhile isSpace).reverse.dropWhile isSpace ≠ [] := by
    intro hx
    apply h
    unfold strip
    rw [hx]
    rfl
  have hlen : 0 < ((t.dropWhile isSpace).reverse.dropWhile isSpace).length :=
    List.length_pos.mpr h2
  have hget := List.dropWhile_get_zero_not isSpace (t.dropWhile isSpace).reverse hlen
  have hcs : isSpace (((t.dropWhile isSpace).reverse.dropWhile isSpace).get ⟨0, hlen⟩)
      = false := Bool.eq_false_iff.mpr hget
  have hmem : ((t.dropWhile isSpace).reverse.dropWhile isSpace).get ⟨0, hlen⟩ ∈ strip t := by
    unfold strip
    rw [List.mem_reverse]
    exact List.get_mem _ _ _
  have hin := mem_strip_of_mem hmem hcs
  intro hx
  rw [hx] at hin
  cases hin

/-- C2: for any input containing an inline dollar-delimited span `$m$`
(with no other dollars around it and no newline inside), classification via
`process_mixed_content` yields exactly one delimited-source segment, no
matter what heuristic indicators occur in the surrounding text: it is a
`math` segment with fixed confidence `0.98` (= 49/50), content preserving
the delimiter characters, and `latex` (the notation) the enclosed text with
the delimiters stripped. -/
theorem c2_delimited_dominates (a m b : List Char)
    (ha : '$' ∉ a) (hm : '$' ∉ m) (hn : '\n' ∉ m) (hb : '$' ∉ b) (hne : m ≠ []) :
    (process_mixed_content (a ++ '$' :: (m ++ '$' :: b))).filter (fun s => isDelimitedSeg s)
      = [{ type := "math", content := '$' :: (m ++ ['$']), latex := some m,
           confidence := some (mkRat 49 50), source := some "latex_delimited" }]
    ∧ (mkRat 49 50 : ℚ) = 49/50 := by
  refine ⟨?_, by rw [Rat.mkRat_eq_div]; norm_num⟩
  have hdm : '$' ∈ a ++ '$' :: (m ++ '$' :: b) :=
    List.mem_append_right _ (List.mem_cons_self _ _)
  have hsw : ¬ strip (a ++ '$' :: (m ++ '$' :: b)) = [] := by
    intro hx
    have hmem := mem_strip_of_mem hdm (by decide)
    rw [hx] at hmem
    cases hmem
  have hwne : a ++ '$' :: (m ++ '$' :: b) ≠ [] := by
    intro hx
    rw [hx] at hdm
    cases hdm
  obtain ⟨f, hf⟩ : ∃ f, (a ++ '$' :: (m ++ '$' :: b)).length = f + 1 := by
    rcases hL : (a ++ '$' :: (m ++ '$' :: b)).length with _ | f
    · exact absurd (List.length_eq_zero.mp hL) hwne
    · exact ⟨f, rfl⟩
  simp only [process_mixed_content, if_neg hsw, hf,
    splitSpansAux_single f ha hm hn hb hne,
    List.map_cons, List.map_nil, List.flatten_cons, List.flatten_nil, List.append_nil]
  set X := if strip a ≠ [] then detect_math_patterns (strip a) else [] with hX
  set Y := if strip b ≠ [] then detect_math_patterns (strip b) else [] with hY
  have hsegs : ((X ++ [delimSegOf m]) ++ Y) ≠ [] := by simp
  rw [if_neg hsegs]
  have hPX : X.filter (fun s => strip s.content ≠ []) = X := by
    rw [hX]
    split
    · apply List.filter_eq_self.mpr
      intro s hs
      rw [decide_eq_true_eq, detect_content _ s hs]
      exact strip_strip_ne (by assumption)
    · rfl
  have hPY : Y.filter (fun s => strip s.content ≠ []) = Y := by
    rw [hY]
    split
    · apply List.filter_eq_self.mpr
      intro s hs
      rw [decide_eq_true_eq, detect_content _ s hs]
      exact strip_strip_ne (by assumption)
    · rfl
  have hPd : ([delimSegOf m] : List Segment).filter (fun s => strip s.content ≠ [])
      = [delimSegOf m] := by
    have hcd : strip (delimSegOf m).content ≠ [] := by
      intro hx
      have h1 : '$' ∈ (delimSegOf m).content := List.mem_cons_self _ _
      have h2 := mem_strip_of_mem h1 (by decide)
      rw [hx] at h2
      cases h2
    simp [List.filter, hcd]
  rw [List.filter_append, List.filter_append, hPX, hPY, hPd]
  rw [if_neg hsegs]
  have hDX : X.filter (fun s => isDelimitedSeg s) = [] := by
    rw [hX]
    split
    · apply List.filter_eq_nil.mpr
      intro s hs
      rw [isDelimitedSeg, detect_source_none _ s hs]
      decide
    · rfl
  have hDY : Y.filter (fun s => isDelimitedSeg s) = [] := by
    rw [hY]
    split
    · apply List.filter_eq_nil.mpr
      intro s hs
      rw [isDelimitedSeg, detect_source_none _ s hs]
      decide
    · rfl
  have hDd : ([delimSegOf m] : List Segment).filter (fun s => isDelimitedSeg s)
      = [delimSegOf m] := by
    simp [List.filter, isDelimitedSeg, delimSegOf]
  rw [List.filter_append, List.filter_append, hDX, hDY, hDd]
  rfl

theorem c2_witness :
    ('$' ∉ "solve ".toList ∧ '$' ∉ "x^2 - 4 = 0".toList ∧ '\n' ∉ "x^2 - 4 = 0".toList
      ∧ '$' ∉ " now".toList ∧ "x^2 - 4 = 0".toList ≠ [])
    ∧ ((process_mixed_content ("solve ".toList ++ '$' :: ("x^2 - 4 = 0".toList
          ++ '$' :: " now".toList))).filter (fun s => isDelimitedSeg s)
        = [{ type := "math", content := '$' :: ("x^2 - 4 = 0".toList ++ ['$']),
             latex := some "x^2 - 4 = 0".toList,
             confidence := some (mkRat 49 50), source := some "latex_delimited" }]
      ∧ (mkRat 49 50 : ℚ) = 49/50) :=
  ⟨⟨by decide, by decide, by decide, by decide, by decide⟩,
   c2_delimited_dominates "solve ".toList "x^2 - 4 = 0".toList " now".toList
     (by decide) (by decide) (by decide) (by decide) (by decide)⟩
